import Mathlib

/-!
Verification of the TypeScript LSP MCP server (ts-service and tool layer).

The development shallowly embeds the state and operations of the server:
JavaScript Map objects become association lists with JS Map set/get/delete
semantics, JS Set objects become duplicate-free lists in insertion order,
the filesystem and path resolution are passed in as explicit parameters
(they are frozen during any single operation), and the stateful module
becomes explicit state passing over a ServerState structure.
-/

namespace TsLsp

/-! ## JS Map and Set primitives over association lists -/

/-- JS `Map.get`, as an association-list lookup on string keys. -/
def mapGet {α : Type} (m : List (String × α)) (k : String) : Option α :=
  (m.find? (fun e => e.fst == k)).map Prod.snd

/-- JS `Map.set`: replace the value in place when the key is present
(keeping the original insertion position), append otherwise. -/
def mapSet {α : Type} (m : List (String × α)) (k : String) (v : α) :
    List (String × α) :=
  match m with
  | [] => [(k, v)]
  | e :: es => if e.fst == k then (k, v) :: es else e :: mapSet es k v

/-- JS `Map.delete`: remove the entry with the given key. -/
def mapDelete {α : Type} (m : List (String × α)) (k : String) :
    List (String × α) :=
  m.filter (fun e => e.fst != k)

/-- JS `Map.has`. -/
def mapHas {α : Type} (m : List (String × α)) (k : String) : Bool :=
  m.any (fun e => e.fst == k)

/-- JS `Set.add`: append when absent, keep insertion order. -/
def setAdd (s : List String) (x : String) : List String :=
  if s.contains x then s else s ++ [x]

/-- Iterating `new Set(l)` in JS: keep the first occurrence of each
element, in encounter order. `seen` accumulates elements already kept. -/
def jsSetOfList (seen : List String) : List String → List String
  | [] => []
  | x :: xs =>
    if seen.contains x then jsSetOfList seen xs
    else x :: jsSetOfList (x :: seen) xs

/-- JS `s.startsWith(p)` on code units, embedded over the character list. -/
def jsStartsWith (s p : String) : Bool := p.data.isPrefixOf s.data

/-- JS `s.endsWith(p)` on code units, embedded over the character list. -/
def jsEndsWith (s p : String) : Bool := p.data.isSuffixOf s.data

/-! ## Coordinate Mapper (ts-service.ts, positionToOffset / offsetToPosition)

JS `content.split("\n")` for the one-character separator is embedded as
`jsSplit` over the character list of the content. -/

/-- JS `String.prototype.split` with a single-character separator:
splitting the empty string gives one empty part, a separator character
starts a fresh part, any other character is prepended to the first part
of the split of the rest. -/
def jsSplit (sep : Char) : List Char → List (List Char)
  | [] => [[]]
  | c :: cs =>
    let rest := jsSplit sep cs
    if c == sep then [] :: rest
    else
      match rest with
      | [] => [[c]]
      | r :: rs => (c :: r) :: rs

/-- The accumulation loop of `positionToOffset`: run over the split lines
while the (0-based) counter `k` is positive and lines remain, adding
line length plus one for the newline at each step. -/
def posLoop : List (List Char) → Int → Int
  | [], _ => 0
  | l :: ls, k => if 0 < k then ((l.length : Int) + 1) + posLoop ls (k - 1) else 0

/-- `positionToOffset(content, line, column)` from ts-service.ts: sum the
lengths (plus one per newline) of the first `line - 1` lines, then add
`column - 1`. Line and column are 1-based; no bounds validation. -/
def positionToOffset (content : String) (line column : Int) : Int :=
  posLoop (jsSplit '\n' content.data) (line - 1) + (column - 1)

/-- A 1-based line/column pair as returned by `offsetToPosition`. -/
structure Position where
  line : Int
  column : Int
deriving DecidableEq, Repr

/-- The scanning loop of `offsetToPosition`: `curr` is the offset of the
start of the current line, `i` its 0-based index. When the offset falls
before the end (inclusive of the newline slot) of the current line the
position inside that line is produced; otherwise the scan advances. -/
def offLoop (offset : Int) : List (List Char) → Int → Int → Option Position
  | [], _, _ => none
  | l :: ls, curr, i =>
    if offset < curr + ((l.length : Int) + 1) then some ⟨i + 1, offset - curr + 1⟩
    else offLoop offset ls (curr + ((l.length : Int) + 1)) (i + 1)

/-- `offsetToPosition(content, offset)` from ts-service.ts: scan the split
lines; if the loop falls through, clamp to line `lines.length`, column 1. -/
def offsetToPosition (content : String) (offset : Int) : Position :=
  (offLoop offset (jsSplit '\n' content.data) 0 0).getD
    ⟨((jsSplit '\n' content.data).length : Int), 1⟩

/-! ## Workspace Resolver (ts-service.ts, findProjectRoot)

Absolute paths are embedded as lists of segments from the filesystem
root, so `path.dirname` is `dropLast` and `path.join(dir, name)` appends
a segment. The loop guard `dir !== path.dirname(dir)` holds exactly
while the segment list is nonempty. The filesystem is frozen during a
call, so `fs.existsSync` is a parameter. -/

/-- An absolute path, as its list of segments from the filesystem root. -/
abbrev FsPath := List String

/-- The while-loop of `findProjectRoot`: return the current directory as
soon as it contains a tsconfig.json or a package.json, otherwise step to
the parent; stop (without checking) at the filesystem root. -/
def rootWalk (fsExists : FsPath → Bool) : FsPath → Option FsPath
  | [] => none
  | x :: xs =>
    if fsExists ((x :: xs) ++ ["tsconfig.json"]) then some (x :: xs)
    else if fsExists ((x :: xs) ++ ["package.json"]) then some (x :: xs)
    else rootWalk fsExists (x :: xs).dropLast
termination_by p => p.length
decreasing_by simp [List.dropLast_cons_of_ne_nil]

/-- `findProjectRoot(filePath)` from ts-service.ts: walk parent
directories from the containing directory of the file, returning the
first that holds a tsconfig.json or package.json marker; fall back to
the containing directory itself when the walk reaches the root. -/
def findProjectRoot (fsExists : FsPath → Bool) (filePath : FsPath) : FsPath :=
  (rootWalk fsExists filePath.dropLast).getD filePath.dropLast

/-- A directory contains a project marker (tsconfig.json or package.json). -/
def hasMarker (fsExists : FsPath → Bool) (dir : FsPath) : Bool :=
  fsExists (dir ++ ["tsconfig.json"]) || fsExists (dir ++ ["package.json"])

/-! ## Server state (the module-level Map objects of ts-service.ts) -/

/-- Which TypeScript installation a binding came from. -/
inductive TsSource
  | project
  | bundled
deriving DecidableEq, Repr

/-- A cached TypeScript module binding (entry of `tsModuleCache`). -/
structure TsBinding where
  version : String
  source : TsSource
deriving DecidableEq, Repr

/-- A language-service object is an opaque handle; its identity is what
the cache claims are about. -/
abbrev Session := Nat

/-- The module-level mutable state of ts-service.ts: the per-project
service cache, the document overlay contents and versions, the
per-project accessed-file sets, the per-project TypeScript module cache,
and the active workspace pointer of the tool layer. -/
structure ServerState where
  serviceCache : List (String × Session)
  documentVersions : List (String × Nat)
  documentContents : List (String × String)
  accessedFiles : List (String × List String)
  tsModuleCache : List (String × TsBinding)
  activeWorkspace : Option String
deriving Repr

/-! ## Document Overlay Store (updateDocument / getFileContent)

`path.resolve` is a pure function of its argument for a fixed working
directory, so it is a parameter `resolve`; `findProjectRoot` applied to
a string path is likewise a parameter `findRoot` frozen for the call. -/

/-- `updateDocument(filePath, content)` from ts-service.ts: store the
content under the resolved path, bump the version (missing version reads
as 0), then delete the owning project from the service cache. -/
def updateDocument (resolve findRoot : String → String)
    (s : ServerState) (filePath content : String) : ServerState :=
  let absPath := resolve filePath
  let newVersion := (mapGet s.documentVersions absPath).getD 0 + 1
  { s with
    documentContents := mapSet s.documentContents absPath content
    documentVersions := mapSet s.documentVersions absPath newVersion
    serviceCache := mapDelete s.serviceCache (findRoot absPath) }

/-- `getFileContent(filePath)` from ts-service.ts: the overlay content
when present, otherwise the disk content; `none` models the NotFound
throw of `fs.readFileSync`. -/
def getFileContent (resolve : String → String) (disk : String → Option String)
    (s : ServerState) (filePath : String) : Option String :=
  let absPath := resolve filePath
  match mapGet s.documentContents absPath with
  | some c => some c
  | none => disk absPath

/-- The stored version of a path: the host getScriptVersion reads
`documentVersions.get(fileName) || 0`. -/
def scriptVersion (s : ServerState) (fileName : String) : Nat :=
  (mapGet s.documentVersions fileName).getD 0

/-! ## Accessed-File Tracker and Session Cache (registerFile / getServiceForFile) -/

/-- `registerFile(projectRoot, filePath)` from ts-service.ts: create the
per-project set when missing, then add the file to it. -/
def registerFile (s : ServerState) (projectRoot filePath : String) : ServerState :=
  let current := (mapGet s.accessedFiles projectRoot).getD []
  { s with accessedFiles := mapSet s.accessedFiles projectRoot (setAdd current filePath) }

/-- `getServiceForFile(filePath)` from ts-service.ts: resolve the path,
find the owning project root, register the file, delete the project
entry from the service cache, then get-or-create the service (after the
delete this always builds a fresh one via `build` and caches it). The
construction of the service object itself is opaque, so `build` is a
parameter. -/
def getServiceForFile (resolve findRoot : String → String)
    (build : ServerState → String → Session)
    (s : ServerState) (filePath : String) : Session × String × String × ServerState :=
  let absPath := resolve filePath
  let projectRoot := findRoot absPath
  let s1 := registerFile s projectRoot absPath
  let s2 := { s1 with serviceCache := mapDelete s1.serviceCache projectRoot }
  match mapGet s2.serviceCache projectRoot with
  | some svc => (svc, absPath, projectRoot, s2)
  | none =>
    let svc := build s2 projectRoot
    (svc, absPath, projectRoot,
      { s2 with serviceCache := mapSet s2.serviceCache projectRoot svc })

/-! ## Compilation scope (the host getScriptFileNames closure) -/

/-- `getScriptFileNames` of the language-service host: the deduplicated
concatenation of the root files fixed at service-build time, the overlay
keys that start with the project root and end in .ts/.tsx/.js/.jsx, and
the accessed files registered for the root. -/
def getScriptFileNames (s : ServerState) (rootFiles : List String)
    (projectRoot : String) : List String :=
  let openFiles := (s.documentContents.map Prod.fst).filter
    (fun f => jsStartsWith f projectRoot &&
      (jsEndsWith f ".ts" || jsEndsWith f ".tsx" || jsEndsWith f ".js" || jsEndsWith f ".jsx"))
  let accessedList := (mapGet s.accessedFiles projectRoot).getD []
  jsSetOfList [] (rootFiles ++ openFiles ++ accessedList)

/-! ## Engine Version Resolver (part_001, getTypeScriptForProject)

`fs.existsSync` of the local installation directory and the outcome of
`require("typescript")` from the project are frozen during a call, so
they are parameters: `loadLocalTs root` is `some version` when the
require succeeds and `none` when it throws. -/

/-- `getTypeScriptForProject(projectRoot)` from part_001: return the
cached binding if present; otherwise try the local installation under
node_modules/typescript (binding source `project`), falling back to the
bundled installation (source `bundled`) when it is absent or fails to
load; cache whichever binding was resolved. -/
def getTypeScriptForProject (fsExistsStr : String → Bool)
    (loadLocalTs : String → Option String) (bundledVersion : String)
    (s : ServerState) (projectRoot : String) : TsBinding × ServerState :=
  match mapGet s.tsModuleCache projectRoot with
  | some b => (b, s)
  | none =>
    let localTsPath := projectRoot ++ "/node_modules/typescript"
    if fsExistsStr localTsPath then
      match loadLocalTs projectRoot with
      | some v =>
        let b : TsBinding := ⟨v, TsSource.project⟩
        (b, { s with tsModuleCache := mapSet s.tsModuleCache projectRoot b })
      | none =>
        let b : TsBinding := ⟨bundledVersion, TsSource.bundled⟩
        (b, { s with tsModuleCache := mapSet s.tsModuleCache projectRoot b })
    else
      let b : TsBinding := ⟨bundledVersion, TsSource.bundled⟩
      (b, { s with tsModuleCache := mapSet s.tsModuleCache projectRoot b })

/-! ## Project Configuration Loader (part_001, config block of getLanguageService) -/

/-- Outcome of `ts.readConfigFile` followed by
`ts.parseJsonConfigFileContent` (external engine capabilities, frozen
during a call): `readErr` is the case where `configFile.error` is set
(syntactically invalid file, with the flattened message), `parsed`
carries the flattened parse error messages and the declared file list. -/
inductive ReadConfigOutcome
  | readErr (msg : String)
  | parsed (parseErrors : List String) (fileNames : List String)
deriving DecidableEq, Repr

/-- The errors/rootFiles/declarationFiles part of the configuration block
of `getLanguageService` (part_001 lines 206-251). -/
structure LoadedConfig where
  errors : List String
  rootFiles : List String
  declarationFiles : List String
deriving DecidableEq, Repr

/-- The dts folding loop of `getLanguageService`: push each declaration
file that the root-file list (as grown so far) does not already include. -/
def foldDtsFiles (rootFiles : List String) : List String → List String
  | [] => rootFiles
  | d :: ds =>
    if rootFiles.contains d then foldDtsFiles rootFiles ds
    else foldDtsFiles (rootFiles ++ [d]) ds

/-- The configuration block of `getLanguageService` (part_001): when the
config file exists and reading fails, collect the single read error and
leave the root files empty; when reading succeeds, collect the parse
errors, take the declared file names and fold in the scanned declaration
files; when no config file exists, the scanned declaration files are the
root files. `projectDtsFiles` is the result of the directory scan
(`findDeclarationFiles`), frozen during the call. -/
def computeProjectConfig (configExists : Bool) (readCfg : ReadConfigOutcome)
    (projectDtsFiles : List String) : LoadedConfig :=
  if configExists then
    match readCfg with
    | ReadConfigOutcome.readErr msg =>
      { errors := ["Failed to read tsconfig.json: " ++ msg]
        rootFiles := []
        declarationFiles := projectDtsFiles }
    | ReadConfigOutcome.parsed parseErrors fileNames =>
      { errors := parseErrors
        rootFiles := foldDtsFiles fileNames projectDtsFiles
        declarationFiles := projectDtsFiles }
  else
    { errors := []
      rootFiles := projectDtsFiles
      declarationFiles := projectDtsFiles }

/-! ## Active Workspace Manager (tool switch_workspace, part_000)

The functions `clearAllCaches` and `setActiveWorkspace` are imported by
the tool layer from ts-service but their defining code is not among the
given sources; they are modelled from the spec below. -/

/-- Modelled from the spec: `clearAllCaches` / `resetAll` (missing from
the given ts-service sources) drops every cached analysis session and
every engine binding process-wide. -/
def clearAllCaches (s : ServerState) : ServerState :=
  { s with serviceCache := [], tsModuleCache := [] }

/-- Modelled from the spec: `setActiveWorkspace` (missing from the given
ts-service sources) records the given directory as the active workspace
and returns it as the canonical path. Its validation and reset have
already been performed by the switch_workspace tool before the call. -/
def setActiveWorkspace (s : ServerState) (absPath : String) : String × ServerState :=
  (absPath, { s with activeWorkspace := some absPath })

/-- Result payload of the switch_workspace tool. -/
inductive SwitchResult
  | success (workspace : String)
  | invalidPath
deriving DecidableEq, Repr

/-- The switch_workspace tool handler (part_000 lines 228-266): resolve
the input, reject paths that are not existing directories, otherwise
clear all caches and set the new active workspace. `isDirectory` is the
conjunction of `fs.existsSync` and `fs.statSync(...).isDirectory()`,
frozen during the call. -/
def switchWorkspace (resolve : String → String) (isDirectory : String → Bool)
    (s : ServerState) (inputPath : String) : SwitchResult × ServerState :=
  let absPath := resolve inputPath
  if isDirectory absPath then
    let s1 := clearAllCaches s
    let (newWorkspace, s2) := setActiveWorkspace s1 absPath
    (SwitchResult.success newWorkspace, s2)
  else
    (SwitchResult.invalidPath, s)

/-! ## applyFileChanges (ts-service.ts lines 479-522) -/

/-- A single text change (ts.TextChange): a span start/length and the
replacement text. -/
structure TextChange where
  start : Nat
  length : Nat
  newText : String
deriving DecidableEq, Repr

/-- ts.FileTextChanges: a file name, the new-file flag, and the changes. -/
structure FileTextChanges where
  fileName : String
  isNewFile : Bool
  textChanges : List TextChange
deriving DecidableEq, Repr

/-- The result record of `applyFileChanges`. -/
structure ApplyResult where
  changedFiles : List String
  created : List String
  deleted : List String
deriving DecidableEq, Repr

/-- One substring splice of the change loop:
`content.substring(0, start) + newText + content.substring(start + length)`,
with the JS clamping of out-of-range indices given by take/drop. -/
def applyTextChange (content : List Char) (tc : TextChange) : List Char :=
  content.take tc.start ++ tc.newText.data ++ content.drop (tc.start + tc.length)

/-- The per-file body of `applyFileChanges`: new files are created from
the concatenated change texts; existing files have their changes applied
from the end backwards, are rewritten, and the overlay content and
version are updated; files that do not exist on disk are skipped. The
result extends the accumulator record and the state; `writes` collects
the `fs.writeFileSync` calls as path/content pairs. -/
def applyOneFileChange (disk : String → Option String)
    (acc : ApplyResult × ServerState × List (String × String))
    (fileChange : FileTextChanges) :
    ApplyResult × ServerState × List (String × String) :=
  let (res, s, writes) := acc
  let filePath := fileChange.fileName
  if fileChange.isNewFile then
    let content := String.mk (fileChange.textChanges.map (fun c => c.newText.data)).flatten
    ({ res with created := res.created ++ [filePath] }, s,
      writes ++ [(filePath, content)])
  else
    match disk filePath with
    | none => (res, s, writes)
    | some diskContent =>
      let sortedChanges :=
        fileChange.textChanges.mergeSort (fun a b => b.start ≤ a.start)
      let newContent := String.mk (sortedChanges.foldl applyTextChange diskContent.data)
      let s1 := { s with
        documentContents := mapSet s.documentContents filePath newContent
        documentVersions := mapSet s.documentVersions filePath
          ((mapGet s.documentVersions filePath).getD 0 + 1) }
      ({ res with changedFiles := res.changedFiles ++ [filePath] }, s1,
        writes ++ [(filePath, newContent)])

/-- `applyFileChanges(changes)` from ts-service.ts: fold the per-file
body over the change list, starting from empty changed/created/deleted
lists. The disk is frozen during the call (`disk p = some c` models a
readable file, `none` a missing one). -/
def applyFileChanges (disk : String → Option String) (s : ServerState)
    (changes : List FileTextChanges) :
    ApplyResult × ServerState × List (String × String) :=
  changes.foldl (applyOneFileChange disk) (⟨[], [], []⟩, s, [])

/-! ## Lemmas about the JS Map and Set embeddings -/

theorem mapGet_cons {α : Type} (e : String × α) (es : List (String × α)) (k : String) :
    mapGet (e :: es) k = if e.fst = k then some e.snd else mapGet es k := by
  by_cases h : e.fst = k
  · simp [mapGet, List.find?_cons, h]
  · simp [mapGet, List.find?_cons, h]

theorem mapGet_mapSet {α : Type} (m : List (String × α)) (k k' : String) (v : α) :
    mapGet (mapSet m k v) k' = if k' = k then some v else mapGet m k' := by
  induction m with
  | nil =>
    by_cases h : k' = k
    · subst h; simp [mapGet, mapSet]
    · simp [mapGet, mapSet, h, Ne.symm h]
  | cons e es ih =>
    by_cases hek : e.fst = k
    · rw [mapSet, if_pos (beq_iff_eq.mpr hek), mapGet_cons, mapGet_cons]
      by_cases hk : k' = k
      · subst hk; simp
      · have h1 : ¬ k = k' := Ne.symm hk
        have h2 : ¬ e.fst = k' := by rw [hek]; exact h1
        simp [hk, h1, h2]
    · rw [mapSet, if_neg (by simpa using hek), mapGet_cons, ih, mapGet_cons]
      by_cases hk : k' = k
      · subst hk; simp [hek]
      · simp [hk]

theorem mapGet_mapDelete {α : Type} (m : List (String × α)) (k k' : String) :
    mapGet (mapDelete m k) k' = if k' = k then none else mapGet m k' := by
  induction m with
  | nil =>
    by_cases h : k' = k <;> simp [mapGet, mapDelete, h]
  | cons e es ih =>
    by_cases hek : e.fst = k
    · rw [mapDelete, List.filter_cons, if_neg (by simp [hek])]
      rw [mapDelete] at ih
      rw [ih, mapGet_cons]
      by_cases hk : k' = k
      · simp [hk]
      · have h2 : ¬ e.fst = k' := by rw [hek]; exact Ne.symm hk
        simp [hk, h2]
    · rw [mapDelete, List.filter_cons, if_pos (by simp [hek])]
      rw [mapGet_cons]
      rw [mapDelete] at ih
      rw [ih, mapGet_cons]
      by_cases he' : e.fst = k'
      · have h1 : ¬ k' = k := fun h => hek (by rw [he', h])
        simp [he', h1]
      · simp [he']

theorem mem_jsSetOfList (l : List String) :
    ∀ (seen : List String) (x : String),
      x ∈ jsSetOfList seen l ↔ x ∈ l ∧ x ∉ seen := by
  induction l with
  | nil => intro seen x; simp [jsSetOfList]
  | cons y ys ih =>
    intro seen x
    by_cases hy : seen.contains y
    · rw [jsSetOfList, if_pos hy, ih]
      constructor
      · rintro ⟨hx, hs⟩
        exact ⟨List.mem_cons_of_mem _ hx, hs⟩
      · rintro ⟨hx, hs⟩
        rcases List.mem_cons.mp hx with rfl | hx
        · exact absurd (List.elem_iff.mp hy) hs
        · exact ⟨hx, hs⟩
    · rw [jsSetOfList, if_neg hy]
      constructor
      · intro hx
        rcases List.mem_cons.mp hx with rfl | hx
        · refine ⟨List.mem_cons_self _ _, ?_⟩
          intro hc
          exact hy (List.elem_iff.mpr hc)
        · rcases (ih (y :: seen) x).mp hx with ⟨h1, h2⟩
          refine ⟨List.mem_cons_of_mem _ h1, fun hc => h2 (List.mem_cons_of_mem _ hc)⟩
      · rintro ⟨hx, hs⟩
        rcases List.mem_cons.mp hx with rfl | hx
        · exact List.mem_cons_self _ _
        · by_cases hxy : x = y
          · subst hxy; exact List.mem_cons_self _ _
          · exact List.mem_cons_of_mem _
              ((ih (y :: seen) x).mpr ⟨hx, by simp [hxy, hs]⟩)

theorem nodup_jsSetOfList (l : List String) :
    ∀ seen : List String, (jsSetOfList seen l).Nodup := by
  induction l with
  | nil => intro seen; simp [jsSetOfList]
  | cons y ys ih =>
    intro seen
    by_cases hy : seen.contains y
    · rw [jsSetOfList, if_pos hy]; exact ih seen
    · rw [jsSetOfList, if_neg hy]
      refine List.nodup_cons.mpr ⟨?_, ih (y :: seen)⟩
      intro hmem
      exact ((mem_jsSetOfList ys (y :: seen) y).mp hmem).2 (List.mem_cons_self _ _)

/-! ## Lemmas about the coordinate mapper -/

theorem posLoop_nonneg (ls : List (List Char)) : ∀ k : Int, 0 ≤ posLoop ls k := by
  induction ls with
  | nil => intro k; simp [posLoop]
  | cons l ls ih =>
    intro k
    rw [posLoop]
    by_cases h : 0 < k
    · rw [if_pos h]
      have := ih (k - 1)
      have hl : (0 : Int) ≤ (l.length : Int) := Int.ofNat_nonneg _
      omega
    · rw [if_neg h]

theorem offLoop_posLoop (lines : List (List Char)) :
    ∀ (k : Nat) (col curr i : Int), k < lines.length → 1 ≤ col →
      col ≤ ((lines.getD k []).length : Int) + 1 →
      offLoop (curr + posLoop lines (k : Int) + (col - 1)) lines curr i
        = some ⟨i + (k : Int) + 1, col⟩ := by
  induction lines with
  | nil => intro k _ _ _ hk; simp at hk
  | cons l ls ih =>
    intro k col curr i hk hc1 hc2
    match k with
    | 0 =>
      rw [posLoop, if_neg (by omega)]
      rw [offLoop, if_pos (by simp only [List.getD_cons_zero] at hc2; omega)]
      simp only [Nat.cast_zero, Option.some.injEq, Position.mk.injEq]
      refine ⟨by ring, by ring⟩
    | Nat.succ n =>
      have hcast : ((Nat.succ n : Nat) : Int) - 1 = (n : Int) := by push_cast; ring
      rw [posLoop, if_pos (by push_cast; omega), hcast]
      rw [offLoop, if_neg (by
        have h1 := posLoop_nonneg ls (n : Int)
        omega)]
      have harg : curr + ((l.length : Int) + 1 + posLoop ls (n : Int)) + (col - 1)
          = (curr + ((l.length : Int) + 1)) + posLoop ls (n : Int) + (col - 1) := by ring
      rw [harg]
      rw [ih n col (curr + ((l.length : Int) + 1)) (i + 1)
        (by simpa using Nat.lt_of_succ_lt_succ hk) hc1
        (by simpa using hc2)]
      simp only [Option.some.injEq, Position.mk.injEq]
      refine ⟨by push_cast; ring, trivial⟩

theorem jsSplit_ne_nil (sep : Char) (l : List Char) : jsSplit sep l ≠ [] := by
  match l with
  | [] => simp [jsSplit]
  | c :: cs =>
    rw [jsSplit]
    by_cases h : c == sep
    · simp [h]
    · simp only [h, Bool.false_eq_true, if_false]
      match hr : jsSplit sep cs with
      | [] => simp
      | r :: rs => simp

/-- Total of line length plus one over a list of lines. -/
def sumLens : List (List Char) → Int
  | [] => 0
  | l :: ls => ((l.length : Int) + 1) + sumLens ls

theorem sumLens_nonneg (ls : List (List Char)) : 0 ≤ sumLens ls := by
  induction ls with
  | nil => simp [sumLens]
  | cons r rs ih =>
    rw [sumLens]
    have : (0 : Int) ≤ (r.length : Int) := Int.ofNat_nonneg _
    omega

theorem sumLens_jsSplit (sep : Char) (l : List Char) :
    sumLens (jsSplit sep l) = (l.length : Int) + 1 := by
  induction l with
  | nil => simp [jsSplit, sumLens]
  | cons c cs ih =>
    rw [jsSplit]
    by_cases h : c == sep
    · simp only [h, if_true]
      rw [sumLens, ih]
      simp only [List.length_nil, List.length_cons]
      push_cast
      ring
    · simp only [h, Bool.false_eq_true, if_false]
      match hr : jsSplit sep cs with
      | [] => exact absurd hr (jsSplit_ne_nil sep cs)
      | r :: rs =>
        rw [hr, sumLens] at ih
        rw [sumLens]
        simp only [List.length_cons] at *
        push_cast at *
        omega

theorem offLoop_none (lines : List (List Char)) :
    ∀ (offset curr i : Int), curr + sumLens lines ≤ offset →
      offLoop offset lines curr i = none := by
  induction lines with
  | nil => intro offset curr i _; rfl
  | cons l ls ih =>
    intro offset curr i h
    rw [sumLens] at h
    have hsum : 0 ≤ sumLens ls := sumLens_nonneg ls
    rw [offLoop, if_neg (by omega)]
    exact ih offset _ _ (by omega)

/-! ## Lemmas about the workspace resolver -/

theorem take_dropLast_eq {α : Type} (l : List α) (i : Nat) (h : i ≤ l.length - 1) :
    l.dropLast.take i = l.take i := by
  rw [List.dropLast_eq_take, List.take_take]
  congr 1
  omega

theorem rootWalk_none (fsExists : FsPath → Bool) :
    ∀ (n : Nat) (dir : FsPath), dir.length ≤ n →
      (∀ i : Nat, i ≤ dir.length → 0 < i → hasMarker fsExists (dir.take i) = false) →
      rootWalk fsExists dir = none := by
  intro n
  induction n with
  | zero =>
    intro dir hlen _
    match dir with
    | [] => rw [rootWalk]
    | x :: xs => simp at hlen
  | succ n ih =>
    intro dir hlen hmk
    match dir with
    | [] => rw [rootWalk]
    | x :: xs =>
      have hLc : (x :: xs).length = xs.length + 1 := by simp
      have hLd : (x :: xs).dropLast.length = xs.length := by
        simp [List.length_dropLast]
      have hm := hmk (x :: xs).length (le_refl _) (by simp)
      rw [List.take_length, hasMarker, Bool.or_eq_false_iff] at hm
      rw [rootWalk, if_neg (by simpa using hm.1), if_neg (by simpa using hm.2)]
      apply ih
      · omega
      · intro i hi hpos
        rw [take_dropLast_eq _ _ (by omega)]
        exact hmk i (by omega) hpos

theorem rootWalk_found (fsExists : FsPath → Bool) :
    ∀ (n : Nat) (dir : FsPath), dir.length ≤ n →
      ∀ k : Nat, 0 < k → k ≤ dir.length →
        hasMarker fsExists (dir.take k) = true →
        (∀ i : Nat, i ≤ dir.length → k < i → hasMarker fsExists (dir.take i) = false) →
        rootWalk fsExists dir = some (dir.take k) := by
  intro n
  induction n with
  | zero =>
    intro dir hlen k hk0 hkle _ _
    match dir with
    | [] => simp at hkle; omega
    | x :: xs => simp at hlen
  | succ n ih =>
    intro dir hlen k hk0 hkle hmark hmax
    match dir with
    | [] => simp at hkle; omega
    | x :: xs =>
      have hLc : (x :: xs).length = xs.length + 1 := by simp
      have hLd : (x :: xs).dropLast.length = xs.length := by
        simp [List.length_dropLast]
      by_cases hk : k = (x :: xs).length
      · rw [hk, List.take_length] at hmark
        rw [hasMarker, Bool.or_eq_true_iff] at hmark
        rw [hk, List.take_length]
        rcases hts : fsExists ((x :: xs) ++ ["tsconfig.json"]) with _ | _
        · have hpkg : fsExists ((x :: xs) ++ ["package.json"]) = true := by
            rcases hmark with h | h
            · rw [hts] at h; exact absurd h (by simp)
            · exact h
          rw [rootWalk, if_neg (by simpa using hts), if_pos (by simpa using hpkg)]
        · rw [rootWalk, if_pos (by simpa using hts)]
      · have hklt : k < (x :: xs).length := lt_of_le_of_ne hkle hk
        have hm := hmax (x :: xs).length (le_refl _) hklt
        rw [List.take_length, hasMarker, Bool.or_eq_false_iff] at hm
        rw [rootWalk, if_neg (by simpa using hm.1), if_neg (by simpa using hm.2)]
        have hlen' : (x :: xs).dropLast.length ≤ n := by omega
        have hkle' : k ≤ (x :: xs).dropLast.length := by omega
        have hmark' : hasMarker fsExists ((x :: xs).dropLast.take k) = true := by
          rw [take_dropLast_eq _ _ (by omega)]
          exact hmark
        have hmax' : ∀ i : Nat, i ≤ (x :: xs).dropLast.length → k < i →
            hasMarker fsExists ((x :: xs).dropLast.take i) = false := by
          intro i hi hki
          rw [take_dropLast_eq _ _ (by omega)]
          exact hmax i (by omega) hki
        rw [ih (x :: xs).dropLast hlen' k hk0 hkle' hmark' hmax']
        rw [take_dropLast_eq _ _ (by omega)]

/-! ## Claim theorems -/

/-- Claim C1: for every text content and every 1-based position within the
bounds of the content (a valid line index into the split lines and a
column between 1 and the line length plus one), offsetToPosition applied
to positionToOffset returns exactly the same line and column. -/
theorem c1_position_roundtrip (content : String) (line col : Int)
    (h1 : 1 ≤ line) (h2 : line ≤ ((jsSplit '\n' content.data).length : Int))
    (h3 : 1 ≤ col)
    (h4 : col ≤ (((jsSplit '\n' content.data).getD (line - 1).toNat []).length : Int) + 1) :
    offsetToPosition content (positionToOffset content line col) = ⟨line, col⟩ := by
  have hk : ((line - 1).toNat : Int) = line - 1 := Int.toNat_of_nonneg (by omega)
  have hklt : (line - 1).toNat < (jsSplit '\n' content.data).length := by omega
  unfold offsetToPosition positionToOffset
  have harg : posLoop (jsSplit '\n' content.data) (line - 1) + (col - 1)
      = 0 + posLoop (jsSplit '\n' content.data) (((line - 1).toNat : Nat) : Int)
        + (col - 1) := by
    rw [hk]; ring
  rw [harg, offLoop_posLoop (jsSplit '\n' content.data) (line - 1).toNat col 0 0 hklt h3 h4]
  simp only [Option.getD_some, Position.mk.injEq]
  refine ⟨by omega, trivial⟩

/-- Witness for C1 at the content "ab\ncd", line 2, column 2. -/
theorem c1_position_roundtrip_witness :
    offsetToPosition "ab\ncd" (positionToOffset "ab\ncd" 2 2) = ⟨2, 2⟩ :=
  c1_position_roundtrip "ab\ncd" 2 2 (by decide) (by decide) (by decide) (by decide)

/-- Claim C9: for every content and every offset strictly greater than the
total length of the content, offsetToPosition clamps to the number of
split lines as the line and 1 as the column. -/
theorem c9_offset_clamp (content : String) (offset : Int)
    (h : (content.data.length : Int) < offset) :
    offsetToPosition content offset
      = ⟨((jsSplit '\n' content.data).length : Int), 1⟩ := by
  unfold offsetToPosition
  rw [offLoop_none (jsSplit '\n' content.data) offset 0 0
    (by rw [sumLens_jsSplit]; omega)]
  rfl

/-- Witness for C9 at the content "ab" and offset 5. -/
theorem c9_offset_clamp_witness :
    offsetToPosition "ab" 5 = ⟨((jsSplit '\n' "ab".data).length : Int), 1⟩ :=
  c9_offset_clamp "ab" 5 (by decide)

/-- Claim C6: findProjectRoot returns the nearest ancestor directory of the
file (walking parents from the containing directory; the filesystem root
itself is never checked) that contains a tsconfig.json or a package.json,
and returns the containing directory itself when no such ancestor exists.
Ancestors of the containing directory `filePath.dropLast` are its takes;
nearest means no longer take carries a marker. -/
theorem c6_findProjectRoot_nearest (fsExists : FsPath → Bool) (filePath : FsPath) :
    ((∀ i : Nat, i ≤ filePath.dropLast.length → 0 < i →
        hasMarker fsExists (filePath.dropLast.take i) = false) →
      findProjectRoot fsExists filePath = filePath.dropLast) ∧
    (∀ k : Nat, 0 < k → k ≤ filePath.dropLast.length →
      hasMarker fsExists (filePath.dropLast.take k) = true →
      (∀ i : Nat, i ≤ filePath.dropLast.length → k < i →
        hasMarker fsExists (filePath.dropLast.take i) = false) →
      findProjectRoot fsExists filePath = filePath.dropLast.take k) := by
  constructor
  · intro hmk
    unfold findProjectRoot
    rw [rootWalk_none fsExists filePath.dropLast.length filePath.dropLast
      (le_refl _) hmk]
    rfl
  · intro k hk0 hkle hmark hmax
    unfold findProjectRoot
    rw [rootWalk_found fsExists filePath.dropLast.length filePath.dropLast
      (le_refl _) k hk0 hkle hmark hmax]
    rfl

/-- Witness for C6: a marker two levels up is found as the project root. -/
theorem c6_findProjectRoot_nearest_witness :
    findProjectRoot (fun p => p == ["home", "proj", "tsconfig.json"])
      ["home", "proj", "src", "a.ts"] = ["home", "proj"] := by
  have h := (c6_findProjectRoot_nearest
      (fun p => p == ["home", "proj", "tsconfig.json"])
      ["home", "proj", "src", "a.ts"]).2 2 (by decide) (by decide) (by decide)
    (by
      intro i h1 h2
      have h3 : i ≤ 3 := by simpa using h1
      interval_cases i
      decide)
  rw [h]
  rfl

/-- Claim C3: immediately after updateDocument(f, c), getFileContent(f)
returns exactly c, and the stored version of the resolved path is one
more than before the write; a never-overlaid path has version 0 (the
getD default of scriptVersion), so the first write makes it 1 and the
version strictly increases across successive writes. -/
theorem c3_overlay_store (resolve findRoot : String → String)
    (disk : String → Option String) (s : ServerState) (f c : String) :
    getFileContent resolve disk (updateDocument resolve findRoot s f c) f = some c ∧
    scriptVersion (updateDocument resolve findRoot s f c) (resolve f)
      = scriptVersion s (resolve f) + 1 := by
  constructor
  · unfold getFileContent updateDocument
    simp [mapGet_mapSet]
  · unfold scriptVersion updateDocument
    simp [mapGet_mapSet]

/-- Claim C10 helper: one step of the applyFileChanges fold never touches
the deleted list. -/
theorem applyOneFileChange_deleted (disk : String → Option String)
    (acc : ApplyResult × ServerState × List (String × String))
    (fc : FileTextChanges) :
    (applyOneFileChange disk acc fc).1.deleted = acc.1.deleted := by
  rcases acc with ⟨res, s, writes⟩
  unfold applyOneFileChange
  by_cases h : fc.isNewFile
  · simp [h]
  · simp only [h, Bool.false_eq_true, if_false]
    cases disk fc.fileName <;> simp

/-- Claim C10: for every input list of file changes, every overlay state
and every disk, the result of applyFileChanges reports no deletions (and
the operation has no delete effect at all: the deleted list starts empty
and no step extends it). -/
theorem c10_no_deletions (disk : String → Option String) (s : ServerState)
    (changes : List FileTextChanges) :
    (applyFileChanges disk s changes).1.deleted = [] := by
  unfold applyFileChanges
  have main : ∀ (cs : List FileTextChanges)
      (acc : ApplyResult × ServerState × List (String × String)),
      (cs.foldl (applyOneFileChange disk) acc).1.deleted = acc.1.deleted := by
    intro cs
    induction cs with
    | nil => intro acc; rfl
    | cons fc rest ih =>
      intro acc
      rw [List.foldl_cons, ih, applyOneFileChange_deleted]
  rw [main]

/-- Claim C7 helper: after the cache delete inside getServiceForFile the
get-or-create always takes the build branch, so the call is equal to
registering the file, deleting the root entry, building, and caching the
fresh session. -/
theorem getServiceForFile_eq (resolve findRoot : String → String)
    (build : ServerState → String → Session) (s : ServerState) (filePath : String) :
    getServiceForFile resolve findRoot build s filePath =
      (let absPath := resolve filePath
       let projectRoot := findRoot absPath
       let s1 := registerFile s projectRoot absPath
       let s2 := { s1 with serviceCache := mapDelete s1.serviceCache projectRoot }
       let svc := build s2 projectRoot
       (svc, absPath, projectRoot,
        { s2 with serviceCache := mapSet s2.serviceCache projectRoot svc })) := by
  unfold getServiceForFile
  simp [mapGet_mapDelete]

/-- Claim C7: when a query registers a file owned by project root r1
(getServiceForFile), the cached session of every other root r2 stays
cached and unchanged, while the entry of r1 becomes the freshly built
session returned by the call. -/
theorem c7_register_frame (resolve findRoot : String → String)
    (build : ServerState → String → Session) (s : ServerState)
    (filePath r1 r2 : String) (svc2 : Session)
    (hroot : findRoot (resolve filePath) = r1)
    (hne : r2 ≠ r1)
    (hcached : mapGet s.serviceCache r2 = some svc2) :
    mapGet (getServiceForFile resolve findRoot build s filePath).2.2.2.serviceCache r2
      = some svc2 ∧
    mapGet (getServiceForFile resolve findRoot build s filePath).2.2.2.serviceCache r1
      = some (getServiceForFile resolve findRoot build s filePath).1 := by
  rw [getServiceForFile_eq]
  simp only [registerFile]
  constructor
  · rw [hroot, mapGet_mapSet, if_neg hne, mapGet_mapDelete, if_neg hne]
    exact hcached
  · rw [hroot, mapGet_mapSet, if_pos rfl]

/-- Witness for C7 with two populated roots. -/
theorem c7_register_frame_witness :
    mapGet ((getServiceForFile (fun p => p) (fun _ => "/r1") (fun _ _ => 42)
        ⟨[("/r1", 1), ("/r2", 7)], [], [], [], [], none⟩
        "/r1/a.ts").2.2.2.serviceCache) "/r2" = some 7 := by
  have h := c7_register_frame (fun p => p) (fun _ => "/r1") (fun _ _ => 42)
    ⟨[("/r1", 1), ("/r2", 7)], [], [], [], [], none⟩
    "/r1/a.ts" "/r1" "/r2" 7 rfl (by decide) (by decide)
  exact h.1

/-- Claim C5: switching the workspace to an existing directory clears the
whole session cache and the whole engine-binding cache, regardless of
how many roots were cached: both become empty and every lookup misses. -/
theorem c5_switch_clears_all (resolve : String → String)
    (isDirectory : String → Bool) (s : ServerState) (inputPath : String)
    (hdir : isDirectory (resolve inputPath) = true) :
    (switchWorkspace resolve isDirectory s inputPath).2.serviceCache = [] ∧
    (switchWorkspace resolve isDirectory s inputPath).2.tsModuleCache = [] ∧
    ∀ root : String,
      mapGet (switchWorkspace resolve isDirectory s inputPath).2.serviceCache root
        = none ∧
      mapGet (switchWorkspace resolve isDirectory s inputPath).2.tsModuleCache root
        = none := by
  unfold switchWorkspace clearAllCaches setActiveWorkspace
  rw [if_pos hdir]
  exact ⟨rfl, rfl, fun root => ⟨rfl, rfl⟩⟩

/-- Witness for C5 with two populated roots in both caches. -/
theorem c5_switch_clears_all_witness :
    (switchWorkspace (fun p => p) (fun _ => true)
      ⟨[("/r1", 1), ("/r2", 2)], [], [], [],
        [("/r1", ⟨"5.5.0", TsSource.project⟩), ("/r2", ⟨"5.6.2", TsSource.bundled⟩)],
        none⟩
      "/w").2.serviceCache = [] := by
  have h := c5_switch_clears_all (fun p => p) (fun _ => true)
    ⟨[("/r1", 1), ("/r2", 2)], [], [], [],
      [("/r1", ⟨"5.5.0", TsSource.project⟩), ("/r2", ⟨"5.6.2", TsSource.bundled⟩)],
      none⟩
    "/w" rfl
  exact h.1

/-- Claim C2 (amended): getScriptFileNames returns a duplicate-free list
whose members are exactly the union of the project-declared root files,
the currently-overlaid files that start with the project root and end in
.ts, .tsx, .js or .jsx, and the accessed files registered for the root. -/
theorem c2_script_file_names (s : ServerState) (rootFiles : List String)
    (projectRoot : String) :
    (getScriptFileNames s rootFiles projectRoot).Nodup ∧
    ∀ f : String, f ∈ getScriptFileNames s rootFiles projectRoot ↔
      (f ∈ rootFiles ∨
       (f ∈ s.documentContents.map Prod.fst ∧ jsStartsWith f projectRoot = true ∧
         (jsEndsWith f ".ts" = true ∨ jsEndsWith f ".tsx" = true ∨
          jsEndsWith f ".js" = true ∨ jsEndsWith f ".jsx" = true)) ∨
       f ∈ (mapGet s.accessedFiles projectRoot).getD []) := by
  constructor
  · exact nodup_jsSetOfList _ []
  · intro f
    unfold getScriptFileNames
    rw [mem_jsSetOfList]
    simp only [List.not_mem_nil, not_false_iff, and_true, List.mem_append,
      List.mem_filter, Bool.and_eq_true, Bool.or_eq_true]
    tauto

/-- Counterexample to C2 as stated: an overlaid .json file under the
project root is absent from getScriptFileNames although the union the
claim describes contains it. -/
theorem c2_counterexample :
    jsStartsWith "/p/a.json" "/p" = true ∧
    "/p/a.json" ∈ (ServerState.documentContents
        ⟨[], [], [("/p/a.json", "x")], [], [], none⟩).map Prod.fst ∧
    "/p/a.json" ∉ getScriptFileNames
        ⟨[], [], [("/p/a.json", "x")], [], [], none⟩ [] "/p" := by
  refine ⟨by decide, by decide, by decide⟩

/-- Claim C4 (amended): when the project config file exists but reading it
fails (invalid syntax), building the session collects exactly one
non-empty error list entry and proceeds without raising (the embedding
is total), but the root files remain empty: the declaration-file
fallback applies only when the config file is absent or parses. -/
theorem c4_malformed_config (msg : String) (projectDtsFiles : List String) :
    (computeProjectConfig true (ReadConfigOutcome.readErr msg)
      projectDtsFiles).errors ≠ [] ∧
    (computeProjectConfig true (ReadConfigOutcome.readErr msg)
      projectDtsFiles).rootFiles = [] := by
  unfold computeProjectConfig
  simp

/-- Counterexample to C4 as stated: with a malformed config and one
scanned declaration file, the error list is non-empty as claimed but the
root files do not fall back to the scanned declaration files. -/
theorem c4_counterexample :
    (computeProjectConfig true (ReadConfigOutcome.readErr "syntax error")
      ["/p/a.d.ts"]).errors ≠ [] ∧
    (computeProjectConfig true (ReadConfigOutcome.readErr "syntax error")
      ["/p/a.d.ts"]).rootFiles
      ≠ (computeProjectConfig true (ReadConfigOutcome.readErr "syntax error")
        ["/p/a.d.ts"]).declarationFiles := by
  refine ⟨by decide, by decide⟩

/-- Claim C8 helper: a cache hit returns the cached binding and leaves the
state unchanged. -/
theorem getTypeScriptForProject_hit (fsExistsStr : String → Bool)
    (loadLocalTs : String → Option String) (bundledVersion : String)
    (s : ServerState) (projectRoot : String) (b : TsBinding)
    (h : mapGet s.tsModuleCache projectRoot = some b) :
    getTypeScriptForProject fsExistsStr loadLocalTs bundledVersion s projectRoot
      = (b, s) := by
  unfold getTypeScriptForProject
  rw [h]

/-- Claim C8 helper: after any call, the resolved binding is cached under
the project root. -/
theorem getTypeScriptForProject_caches (fsExistsStr : String → Bool)
    (loadLocalTs : String → Option String) (bundledVersion : String)
    (s : ServerState) (projectRoot : String) :
    mapGet (getTypeScriptForProject fsExistsStr loadLocalTs bundledVersion s
        projectRoot).2.tsModuleCache projectRoot
      = some (getTypeScriptForProject fsExistsStr loadLocalTs bundledVersion s
        projectRoot).1 := by
  unfold getTypeScriptForProject
  cases hc : mapGet s.tsModuleCache projectRoot with
  | some b => exact hc
  | none =>
    by_cases hex : fsExistsStr (projectRoot ++ "/node_modules/typescript") = true
    · rw [if_pos hex]
      cases hl : loadLocalTs projectRoot with
      | some v => simp [mapGet_mapSet]
      | none => simp [mapGet_mapSet]
    · rw [if_neg hex]
      simp [mapGet_mapSet]

/-- Claim C8: engine resolution prefers a loadable project-local
installation (source project); on absence or load failure it falls back
to the bundled installation (source bundled) without raising (the
embedding is total); the resolved binding is cached per root, so an
immediate second call returns the same binding with no state change; and
an overlay write (updateDocument) leaves the binding cache untouched. -/
theorem c8_engine_binding (fsExistsStr : String → Bool)
    (loadLocalTs : String → Option String) (bundledVersion : String)
    (resolve findRoot : String → String)
    (s : ServerState) (projectRoot f c : String) :
    (mapGet s.tsModuleCache projectRoot = none →
      fsExistsStr (projectRoot ++ "/node_modules/typescript") = true →
      ∀ v : String, loadLocalTs projectRoot = some v →
        (getTypeScriptForProject fsExistsStr loadLocalTs bundledVersion s
          projectRoot).1 = ⟨v, TsSource.project⟩) ∧
    (mapGet s.tsModuleCache projectRoot = none →
      (fsExistsStr (projectRoot ++ "/node_modules/typescript") = false ∨
        loadLocalTs projectRoot = none) →
      (getTypeScriptForProject fsExistsStr loadLocalTs bundledVersion s
        projectRoot).1 = ⟨bundledVersion, TsSource.bundled⟩) ∧
    mapGet (getTypeScriptForProject fsExistsStr loadLocalTs bundledVersion s
        projectRoot).2.tsModuleCache projectRoot
      = some (getTypeScriptForProject fsExistsStr loadLocalTs bundledVersion s
        projectRoot).1 ∧
    getTypeScriptForProject fsExistsStr loadLocalTs bundledVersion
        (getTypeScriptForProject fsExistsStr loadLocalTs bundledVersion s
          projectRoot).2 projectRoot
      = ((getTypeScriptForProject fsExistsStr loadLocalTs bundledVersion s
          projectRoot).1,
         (getTypeScriptForProject fsExistsStr loadLocalTs bundledVersion s
          projectRoot).2) ∧
    (updateDocument resolve findRoot s f c).tsModuleCache = s.tsModuleCache := by
  refine ⟨?_, ?_, getTypeScriptForProject_caches _ _ _ _ _, ?_, rfl⟩
  · intro hnone hex v hl
    unfold getTypeScriptForProject
    rw [hnone, if_pos hex, hl]
  · intro hnone hfb
    unfold getTypeScriptForProject
    rw [hnone]
    rcases hfb with hex | hl
    · rw [if_neg (by simp [hex])]
    · by_cases hex : fsExistsStr (projectRoot ++ "/node_modules/typescript") = true
      · rw [if_pos hex, hl]
      · rw [if_neg hex]
  · exact getTypeScriptForProject_hit _ _ _ _ _ _
      (getTypeScriptForProject_caches _ _ _ _ _)

/-- Witness for C8: a loadable project-local installation is preferred. -/
theorem c8_engine_binding_witness :
    (getTypeScriptForProject (fun _ => true) (fun _ => some "5.4.5") "5.6.2"
      ⟨[], [], [], [], [], none⟩ "/p").1 = ⟨"5.4.5", TsSource.project⟩ := by
  have h := c8_engine_binding (fun _ => true) (fun _ => some "5.4.5") "5.6.2"
    (fun p => p) (fun _ => "/p") ⟨[], [], [], [], [], none⟩ "/p" "/p/a.ts" "x"
  exact h.1 rfl rfl "5.4.5" rfl

end TsLsp
